import Mathlib

/-!
Verification of the N-dimensional boundary search (`ndBinarySearch`) of the
`binary-search-generalized` repository, together with the scalar
`binarySearchGeneralized` it is cross-validated against.

The TypeScript generators are embedded as pure Lean functions:
* lazily yielded sequences become the list of all yielded values;
* the (possibly non-terminating) recursion of `dfsBinarySearch` and the
  `while` loop of `binarySearchGeneralized` take a `fuel` bound, returning
  `none` when the bound is exhausted — a run that terminates is exactly a run
  that returns `some` for every large enough fuel;
* the thrown length-mismatch error of the entry point becomes `Except.error`.

JavaScript `Set` objects iterated in insertion order are embedded as lists:
the initial component set `{0..D-1}` is `List.range D`, `createShouldContinue`
filters it, and `divide`'s loop (which deletes each visited element from a
copy before recursing) passes the list tail to its recursive call.
-/

set_option maxHeartbeats 1600000

/-- The `Division` type of `src/nd.ts`: a pair of corner vectors bounding a
box known to contain the boundary. -/
structure Division (α : Type) where
  always : List α
  never : List α
deriving DecidableEq, Repr

/-- The function produced by `createShouldContinue` in `src/nd.ts`: keep the
active components whose per-dimension continuation returns `true` on the
current `(always[i], never[i])` pair. -/
def createShouldContinue [Inhabited α] (shouldContinue : List (α → α → Bool))
    (division : Division α) (components : List Nat) : List Nat :=
  components.filter fun i =>
    (shouldContinue.getD i default) (division.always.getD i default)
      (division.never.getD i default)

/-- The function produced by `createMidpoint` in `src/nd.ts`: map over the
midpoint-function array, applying the midpoint only on active components and
keeping `always[i]` elsewhere. -/
def createMidpoint [Inhabited α] (midpoint : List (α → α → α))
    (division : Division α) (components : List Nat) : List α :=
  midpoint.mapIdx fun i fn =>
    if components.contains i then
      fn (division.always.getD i default) (division.never.getD i default)
    else division.always.getD i default

/-- The `vectorWith` helper from `src/nd.ts`: copy the vector and replace one component
(`Array.prototype.with`). -/
def vectorWith (vector : List α) (index : Nat) (value : α) : List α :=
  vector.set index value

/-- The division yielded by `divide` before the omission loop:
`result ? {always: mid, never: forward} : {always: forward, never: mid}`. -/
def fullDivision (result : Bool) (mid forward : List α) : Division α :=
  if result then ⟨mid, forward⟩ else ⟨forward, mid⟩

/-- The omission loop of `divide` in `src/nd.ts`.  Processing component `i`:
`omitted` is `forward` with component `i` pulled back to `mid[i]`; when
`predicate(omitted) == result` the combination is pruned, otherwise the inner
`yield* divide(omitted, backward, counter, result, rest)` contributes the
full division of the inner call followed by that call's own omission loop,
after which the outer loop continues on `rest` — the recursive call receives
exactly the components strictly after `i`, because the loop deletes each
visited element from the iterated copy. -/
def divideGo [Inhabited α] (predicate : List α → Bool) :
    List Nat → List α → List α → List α → Bool → List (Division α)
  | [], _, _, _, _ => []
  | i :: rest, forward, backward, mid, result =>
    let omitted := vectorWith forward i (mid.getD i default)
    if predicate omitted = result then
      divideGo predicate rest forward backward mid result
    else
      let counter := vectorWith mid i (backward.getD i default)
      (fullDivision result counter omitted ::
          divideGo predicate rest omitted backward counter result) ++
        divideGo predicate rest forward backward mid result

/-- The generator produced by `createDivide` in `src/nd.ts`: first the full
division, then the pruned omission loop. -/
def divide [Inhabited α] (predicate : List α → Bool) (forward backward mid : List α)
    (result : Bool) (components : List Nat) : List (Division α) :=
  fullDivision result mid forward ::
    divideGo predicate components forward backward mid result

/-- The `for (const division of divisions) yield* dfsBinarySearch(...)` loop:
concatenate the outputs of `search` over a list of divisions, propagating
fuel exhaustion. -/
def dfsList (search : Division α → Option (List (List α))) :
    List (Division α) → Option (List (List α))
  | [] => some []
  | d :: ds => (search d).bind fun r => (dfsList search ds).map fun rs => r ++ rs

/-- The generator produced by `createDfsBinarySearch` in `src/nd.ts`: filter
the active components; if none is left, yield `division.always`; otherwise
compute the midpoint vector, classify it, orient `forward`/`backward`, and
recurse over the divisions produced by `divide`.  The first argument is the
recursion-depth fuel. -/
def dfsBinarySearch [Inhabited α] (predicate : List α → Bool)
    (midpoint : List (α → α → α)) (shouldContinue : List (α → α → Bool)) :
    Nat → Division α → List Nat → Option (List (List α))
  | 0, _, _ => none
  | fuel + 1, division, components =>
    let comps := createShouldContinue shouldContinue division components
    if comps.isEmpty then some [division.always]
    else
      let mid := createMidpoint midpoint division comps
      let result := predicate mid
      let forward := if result then division.never else division.always
      let backward := if result then division.always else division.never
      dfsList (fun d => dfsBinarySearch predicate midpoint shouldContinue fuel d comps)
        (divide predicate forward backward mid result comps)

/-- The entry point `ndBinarySearch` from `src/nd.ts`: validate that the four inputs share one
length (throwing the documented error otherwise), seed the component set
`{0..D-1}`, and run the driver on the initial division. -/
def ndBinarySearch [Inhabited α] (fuel : Nat) (alwaysEnd neverEnd : List α)
    (predicate : List α → Bool) (midpoint : List (α → α → α))
    (shouldContinue : List (α → α → Bool)) : Except String (Option (List (List α))) :=
  if alwaysEnd.length ≠ neverEnd.length ∨ neverEnd.length ≠ midpoint.length ∨
      midpoint.length ≠ shouldContinue.length then
    Except.error "All input vectors must have the same length"
  else
    Except.ok (dfsBinarySearch predicate midpoint shouldContinue fuel
      ⟨alwaysEnd, neverEnd⟩ (List.range alwaysEnd.length))

/-- The safety mode of the scalar searches (`"check"` / `"nocheck"`). -/
inductive Safety where
  | check
  | nocheck
deriving DecidableEq, Repr

/-- The `while (shouldContinue(always, never))` loop of
`binarySearchGeneralized`, with a fuel bound on the number of iterations. -/
def bsgLoop (predicate : α → Bool) (midpoint : α → α → α)
    (shouldContinue : α → α → Bool) : Nat → α → α → Option α
  | 0, always, nevr => if shouldContinue always nevr then none else some always
  | fuel + 1, always, nevr =>
    if shouldContinue always nevr then
      let middle := midpoint always nevr
      if predicate middle then bsgLoop predicate midpoint shouldContinue fuel middle nevr
      else bsgLoop predicate midpoint shouldContinue fuel always middle
    else some always

/-- The scalar `binarySearchGeneralized` from the repository's scalar module: in
`"check"` mode validate the two endpoint preconditions (raising the
documented `RangeError`s), then run the refinement loop. -/
def binarySearchGeneralized (fuel : Nat) (alwaysEnd neverEnd : α) (predicate : α → Bool)
    (midpoint : α → α → α) (shouldContinue : α → α → Bool) (safety : Safety) :
    Except String (Option α) :=
  if safety = Safety.check then
    if predicate alwaysEnd = false then
      Except.error "alwaysEnd must satisfy the condition"
    else if predicate neverEnd then
      Except.error "neverEnd must not satisfy the condition"
    else Except.ok (bsgLoop predicate midpoint shouldContinue fuel alwaysEnd neverEnd)
  else Except.ok (bsgLoop predicate midpoint shouldContinue fuel alwaysEnd neverEnd)

/-- Instrumentation of `dfsList` for stating invariants about the recursion:
record the argument pair of every recursive `dfsBinarySearch` call. -/
def dfsCallsList (trace : Division α → List (Division α × List Nat)) (comps : List Nat) :
    List (Division α) → List (Division α × List Nat)
  | [] => []
  | d :: ds => ((d, comps) :: trace d) ++ dfsCallsList trace comps ds

/-- Instrumentation of `dfsBinarySearch`: the list of `(division, components)`
arguments of every recursive call reachable from the given call within the
fuel bound.  It mirrors `dfsBinarySearch` step for step; every division ever
constructed during the run (each one yielded by `divide`) appears here,
because the driver recurses on every division `divide` yields. -/
def dfsCalls [Inhabited α] (predicate : List α → Bool)
    (midpoint : List (α → α → α)) (shouldContinue : List (α → α → Bool)) :
    Nat → Division α → List Nat → List (Division α × List Nat)
  | 0, _, _ => []
  | fuel + 1, division, components =>
    let comps := createShouldContinue shouldContinue division components
    if comps.isEmpty then []
    else
      let mid := createMidpoint midpoint division comps
      let result := predicate mid
      let forward := if result then division.never else division.always
      let backward := if result then division.always else division.never
      dfsCallsList (fun d => dfsCalls predicate midpoint shouldContinue fuel d comps) comps
        (divide predicate forward backward mid result comps)

/-- C5: the entry point reports an error exactly on a length mismatch of the
four inputs, with the documented message; the right-hand side mentions none
of the three supplied function families, so whether the call errors (and the
error produced) is decided before any of them is consulted — it depends only
on the lengths — and an error call produces no generator at all. -/
theorem c5_length_mismatch_error [Inhabited α] (fuel : Nat) (alwaysEnd neverEnd : List α)
    (predicate : List α → Bool) (midpoint : List (α → α → α))
    (shouldContinue : List (α → α → Bool)) (e : String) :
    ndBinarySearch fuel alwaysEnd neverEnd predicate midpoint shouldContinue =
        Except.error e ↔
      (e = "All input vectors must have the same length" ∧
        ¬(alwaysEnd.length = neverEnd.length ∧ neverEnd.length = midpoint.length ∧
          midpoint.length = shouldContinue.length)) := by
  unfold ndBinarySearch
  split
  · rename_i h
    constructor
    · intro he
      refine ⟨by injection he with h1; exact h1.symm, ?_⟩
      intro hc
      exact absurd hc (by tauto)
    · intro he
      rw [he.1]
  · rename_i h
    push_neg at h
    constructor
    · intro he
      exact absurd he (by simp)
    · intro he
      exact absurd ⟨h.1, h.2.1, h.2.2⟩ he.2

/-- C7: the splitter always yields the full division
`result ? (always=mid, never=forward) : (always=forward, never=mid)` first,
and its omission loop, at each considered dimension `i`, prunes (yields
nothing for `i` and never explores combinations extending `i`) exactly when
`predicate(omitted) == result`, and otherwise yields the division formed from
`(omitted, counter)` by the result rule and recurses into the remaining
dimensions both with and without the omission of `i`. -/
theorem c7_splitter_pruning [Inhabited α] (predicate : List α → Bool)
    (forward backward mid : List α) (result : Bool) (i : Nat)
    (rest components : List Nat) :
    (divide predicate forward backward mid result components).head? =
        some (if result then Division.mk mid forward else Division.mk forward mid) ∧
      divideGo predicate (i :: rest) forward backward mid result =
        (if predicate (vectorWith forward i (mid.getD i default)) = result then
          divideGo predicate rest forward backward mid result
        else
          (fullDivision result (vectorWith mid i (backward.getD i default))
              (vectorWith forward i (mid.getD i default)) ::
            divideGo predicate rest (vectorWith forward i (mid.getD i default)) backward
              (vectorWith mid i (backward.getD i default)) result) ++
            divideGo predicate rest forward backward mid result) := by
  refine ⟨rfl, ?_⟩
  rw [divideGo]

/-- C10: the search is deterministic — it is a pure function of its inputs,
so two calls whose predicate, midpoint functions and continuation functions
agree extensionally (pointwise) produce identical output sequences: the same
vectors, in the same order, with the same length. -/
theorem c10_determinism [Inhabited α] (fuel : Nat) (alwaysEnd neverEnd : List α)
    (p₁ p₂ : List α → Bool) (m₁ m₂ : List (α → α → α)) (c₁ c₂ : List (α → α → Bool))
    (hp : ∀ v, p₁ v = p₂ v)
    (hmlen : m₁.length = m₂.length) (hclen : c₁.length = c₂.length)
    (hm : ∀ i x y, (m₁.getD i default) x y = (m₂.getD i default) x y)
    (hc : ∀ i x y, (c₁.getD i default) x y = (c₂.getD i default) x y) :
    ndBinarySearch fuel alwaysEnd neverEnd p₁ m₁ c₁ =
      ndBinarySearch fuel alwaysEnd neverEnd p₂ m₂ c₂ := by
  have hp' : p₁ = p₂ := funext hp
  have hm' : m₁ = m₂ := by
    apply List.ext_getElem hmlen
    intro i h₁ h₂
    funext x y
    have := hm i x y
    rwa [List.getD_eq_getElem?_getD, List.getD_eq_getElem?_getD,
      List.getElem?_eq_getElem h₁, List.getElem?_eq_getElem h₂] at this
  have hc' : c₁ = c₂ := by
    apply List.ext_getElem hclen
    intro i h₁ h₂
    funext x y
    have := hc i x y
    rwa [List.getD_eq_getElem?_getD, List.getD_eq_getElem?_getD,
      List.getElem?_eq_getElem h₁, List.getElem?_eq_getElem h₂] at this
  rw [hp', hm', hc']

/-- Witness for C10 at concrete inputs: two syntactically different but
extensionally equal triples of callbacks over `ℤ` produce the same result. -/
theorem c10_determinism_witness :
    ndBinarySearch 8 [0, 0] [4, 4] (fun v => decide (v.getD 0 0 + v.getD 1 0 < 3))
        [fun a b => Int.fdiv (a + b) 2, fun a b => Int.fdiv (a + b) 2]
        [fun a b => decide (b - a > 1), fun a b => decide (b - a > 1)] =
      ndBinarySearch 8 [0, 0] [4, 4] (fun v => !decide (3 ≤ v.getD 0 0 + v.getD 1 0))
        [fun a b => Int.fdiv (b + a) 2, fun a b => Int.fdiv (b + a) 2]
        [fun a b => !decide (b - a ≤ 1), fun a b => !decide (b - a ≤ 1)] :=
  c10_determinism 8 [0, 0] [4, 4] _ _ _ _ _ _
    (by intro v; rw [← decide_not]; simp only [decide_eq_decide]; omega)
    (by simp) (by simp)
    (by
      intro i x y
      match i with
      | 0 => simp [Int.add_comm]
      | 1 => simp [Int.add_comm]
      | _ + 2 => simp [List.getD])
    (by
      intro i x y
      match i with
      | 0 =>
        show decide (y - x > 1) = !decide (y - x ≤ 1)
        rw [← decide_not]; simp only [decide_eq_decide]; omega
      | 1 =>
        show decide (y - x > 1) = !decide (y - x ≤ 1)
        rw [← decide_not]; simp only [decide_eq_decide]; omega
      | _ + 2 => simp [List.getD])

/-- The sphere predicate of the concrete scenario in `test/nd.test.ts`:
`x² + y² + z² < 4²`. -/
def spherePredicate (v : List Int) : Bool :=
  decide (v.getD 0 0 ^ 2 + v.getD 1 0 ^ 2 + v.getD 2 0 ^ 2 < 16)

/-- The per-axis integer midpoint of the concrete scenario:
`Math.floor((always + never) / 2)`. -/
def integerMidpoint (always nevr : Int) : Int :=
  Int.fdiv (always + nevr) 2

/-- The per-axis continuation of the concrete scenario: `never - always > 1`. -/
def gapContinue (always nevr : Int) : Bool :=
  decide (nevr - always > 1)

/-- The 34 expected border vectors of the concrete scenario, as listed in the
spec and in `test/nd.test.ts`. -/
def sphereExpected : List (List Int) :=
  [[0, 0, 3], [0, 1, 3], [0, 2, 2], [0, 2, 3], [0, 3, 0], [0, 3, 1], [0, 3, 2],
   [1, 0, 3], [1, 1, 2], [1, 1, 3], [1, 2, 1], [1, 2, 2], [1, 2, 3], [1, 3, 0],
   [1, 3, 1], [1, 3, 2], [2, 0, 2], [2, 0, 3], [2, 1, 1], [2, 1, 2], [2, 1, 3],
   [2, 2, 0], [2, 2, 1], [2, 2, 2], [2, 3, 0], [2, 3, 1], [3, 0, 0], [3, 0, 1],
   [3, 0, 2], [3, 1, 0], [3, 1, 1], [3, 1, 2], [3, 2, 0], [3, 2, 1]]

/-- C2: the concrete 3-D sphere scenario — `alwaysEnd = (0,0,0)`,
`neverEnd = (16,8,12)`, predicate `x² + y² + z² < 16`, floor midpoint and
gap-greater-than-one continuation on every axis — terminates (fuel 64 more
than suffices) and yields exactly 34 vectors, which are exactly the expected
border set (as a permutation of the duplicate-free expected list). -/
theorem c2_sphere_scenario :
    ∃ out : List (List Int),
      ndBinarySearch 64 [0, 0, 0] [16, 8, 12] spherePredicate
          [integerMidpoint, integerMidpoint, integerMidpoint]
          [gapContinue, gapContinue, gapContinue] = Except.ok (some out) ∧
        out.length = 34 ∧ out.Perm sphereExpected := by
  refine ⟨[[3, 1, 2], [2, 1, 2], [2, 1, 1], [3, 1, 1], [1, 1, 2], [3, 0, 2],
    [2, 0, 2], [3, 0, 1], [3, 0, 0], [3, 1, 0], [2, 3, 1], [1, 3, 2], [0, 3, 2],
    [0, 3, 1], [1, 3, 1], [1, 2, 2], [0, 2, 2], [1, 2, 1], [1, 3, 0], [0, 3, 0],
    [2, 2, 1], [3, 2, 1], [2, 2, 2], [3, 2, 0], [2, 2, 0], [2, 3, 0], [1, 2, 3],
    [0, 2, 3], [1, 0, 3], [0, 0, 3], [2, 0, 3], [2, 1, 3], [1, 1, 3], [0, 1, 3]],
    ?_, by decide, by decide⟩
  rfl

/-! ### Vector access helpers -/

theorem length_vectorWith (v : List α) (i : Nat) (x : α) :
    (vectorWith v i x).length = v.length :=
  List.length_set v i x

theorem getD_vectorWith_self [Inhabited α] (v : List α) (i : Nat) (x : α)
    (h : i < v.length) : (vectorWith v i x).getD i default = x := by
  simp [vectorWith, List.getD, List.getElem?_set, h]

theorem getD_vectorWith_ne [Inhabited α] (v : List α) {i j : Nat} (x : α)
    (h : i ≠ j) : (vectorWith v i x).getD j default = v.getD j default := by
  simp [vectorWith, List.getD, List.getElem?_set_ne h]

theorem length_createMidpoint [Inhabited α] (mp : List (α → α → α)) (d : Division α)
    (c : List Nat) : (createMidpoint mp d c).length = mp.length := by
  simp [createMidpoint]

theorem getD_createMidpoint [Inhabited α] (mp : List (α → α → α)) (d : Division α)
    (c : List Nat) {i : Nat} (h : i < mp.length) :
    (createMidpoint mp d c).getD i default =
      if c.contains i then
        (mp.getD i default) (d.always.getD i default) (d.never.getD i default)
      else d.always.getD i default := by
  rw [createMidpoint, List.getD_eq_getElem _ _ (by simpa using h),
    List.getD_eq_getElem _ _ h]
  simp [List.getElem_mapIdx]

/-! ### The order of spec §3

`Rle a n i x y` says that `x` is at least as close to the `alwaysEnd` side of
axis `i` as `y` — the per-coordinate order oriented from `a[i]` toward
`n[i]`.  Vectors compare pointwise (`VecLe`), the box of spec §3 is `InBox`,
and spec §3's monotonicity is `MonotonePred`: moving a point of the box
toward the never corner (in any subset of coordinates) can only flip the
predicate from `true` to `false`. -/

def Rle [Inhabited α] [LinearOrder α] (a n : List α) (i : Nat) (x y : α) : Prop :=
  if a.getD i default ≤ n.getD i default then x ≤ y else y ≤ x

theorem rle_refl [Inhabited α] [LinearOrder α] (a n : List α) (i : Nat) (x : α) :
    Rle a n i x x := by
  unfold Rle; split <;> exact le_refl x

theorem rle_trans [Inhabited α] [LinearOrder α] {a n : List α} {i : Nat} {x y z : α}
    (h1 : Rle a n i x y) (h2 : Rle a n i y z) : Rle a n i x z := by
  unfold Rle at *
  split at h1 <;> rename_i hd <;> simp only [hd, if_pos, if_neg, ite_true, ite_false] at *
  · exact le_trans h1 h2
  · exact le_trans h2 h1

theorem rle_antisymm [Inhabited α] [LinearOrder α] {a n : List α} {i : Nat} {x y : α}
    (h1 : Rle a n i x y) (h2 : Rle a n i y x) : x = y := by
  unfold Rle at *
  split at h1 <;> rename_i hd <;> simp only [hd, if_pos, if_neg, ite_true, ite_false] at *
  · exact le_antisymm h1 h2
  · exact le_antisymm h2 h1

theorem rle_ends [Inhabited α] [LinearOrder α] (a n : List α) (i : Nat) :
    Rle a n i (a.getD i default) (n.getD i default) := by
  unfold Rle; split
  · assumption
  · exact le_of_not_le (by assumption)

/-- Two points on opposite sides of a cut `c`, with the low side strict,
are distinct. -/
theorem rle_sep [Inhabited α] [LinearOrder α] {a n : List α} {i : Nat} {x c y : α}
    (hx : Rle a n i x c) (hne : x ≠ c) (hy : Rle a n i c y) : x ≠ y := by
  intro he
  exact hne (rle_antisymm hx (he ▸ hy))

/-- The order `Rle` oriented by the `result` flag of a `divide` call: `RleR r a n i x y`
says `x` is at least as close to the `backward` side as `y` (for `r = true`
the backward corner sits on the always side, for `r = false` on the never
side). -/
def RleR [Inhabited α] [LinearOrder α] (r : Bool) (a n : List α) (i : Nat) (x y : α) :
    Prop :=
  if r then Rle a n i x y else Rle a n i y x

theorem rler_refl [Inhabited α] [LinearOrder α] (r : Bool) (a n : List α) (i : Nat)
    (x : α) : RleR r a n i x x := by
  unfold RleR; split <;> exact rle_refl a n i x

theorem rler_trans [Inhabited α] [LinearOrder α] {r : Bool} {a n : List α} {i : Nat}
    {x y z : α} (h1 : RleR r a n i x y) (h2 : RleR r a n i y z) : RleR r a n i x z := by
  unfold RleR at *
  split at h1 <;> rename_i hr <;> simp only [hr, ite_true, ite_false] at *
  · exact rle_trans h1 h2
  · exact rle_trans h2 h1

/-- The backward-side end of the root box, oriented by `result`. -/
def endB [Inhabited α] (r : Bool) (a n : List α) (i : Nat) : α :=
  if r then a.getD i default else n.getD i default

/-- The forward-side end of the root box, oriented by `result`. -/
def endF [Inhabited α] (r : Bool) (a n : List α) (i : Nat) : α :=
  if r then n.getD i default else a.getD i default

/-- Pointwise comparison of vectors in the order oriented from `a` to `n`. -/
def VecLe [Inhabited α] [LinearOrder α] (a n x y : List α) : Prop :=
  ∀ i, i < a.length → Rle a n i (x.getD i default) (y.getD i default)

theorem vecle_refl [Inhabited α] [LinearOrder α] (a n x : List α) : VecLe a n x x :=
  fun i _ => rle_refl a n i _

theorem vecle_trans [Inhabited α] [LinearOrder α] {a n x y z : List α}
    (h1 : VecLe a n x y) (h2 : VecLe a n y z) : VecLe a n x z :=
  fun i hi => rle_trans (h1 i hi) (h2 i hi)

/-- Membership in the axis-aligned box spanned by `a` and `n` (spec §3). -/
def InBox [Inhabited α] [LinearOrder α] (a n x : List α) : Prop :=
  VecLe a n a x ∧ VecLe a n x n

/-- Spec §3 monotonicity of the predicate on the box: moving any point of the
box toward the never corner in any subset of coordinates can only flip the
predicate from `true` to `false`, never the reverse. -/
def MonotonePred [Inhabited α] [LinearOrder α] (a n : List α)
    (predicate : List α → Bool) : Prop :=
  ∀ x y : List α, x.length = a.length → y.length = a.length →
    InBox a n x → InBox a n y → VecLe a n x y →
    predicate y = true → predicate x = true

/-- The per-dimension midpoint functions land (weakly) between their
arguments, in the order of axis `i` — the convergence half of the documented
"midpoint/continuation pairs designed together" contract that the internal
divisions rely on. -/
def MidpointValid [Inhabited α] [LinearOrder α] (a n : List α)
    (midpoint : List (α → α → α)) : Prop :=
  ∀ i, i < a.length → ∀ p q : α, Rle a n i p q →
    Rle a n i p ((midpoint.getD i default) p q) ∧
      Rle a n i ((midpoint.getD i default) p q) q

/-- The strict half of the convergence contract: while the continuation of
axis `i` still asks to refine, the midpoint is distinct from both ends. -/
def MidpointStrict [Inhabited α] [LinearOrder α] (a n : List α)
    (midpoint : List (α → α → α)) (shouldContinue : List (α → α → Bool)) : Prop :=
  ∀ i, i < a.length → ∀ p q : α,
    (shouldContinue.getD i default) p q = true → Rle a n i p q →
    (midpoint.getD i default) p q ≠ p ∧ (midpoint.getD i default) p q ≠ q

/-- The Division invariant of spec §3, relative to the root corners: the
always corner satisfies the predicate, the never corner does not, and the
box of the division sits inside the root box with the right orientation. -/
structure DivInv [Inhabited α] [LinearOrder α] (a n : List α)
    (predicate : List α → Bool) (d : Division α) : Prop where
  lenA : d.always.length = a.length
  lenN : d.never.length = a.length
  predA : predicate d.always = true
  predN : predicate d.never = false
  leAA : VecLe a n a d.always
  leAN : VecLe a n d.always d.never
  leNN : VecLe a n d.never n

/-- Invariant of a `divide` call: `mid` classifies as `result`, `forward` as
the opposite, and backward, mid and forward sit in this order between the
two ends of the root box (in the `result`-oriented order). -/
structure DivideInv [Inhabited α] [LinearOrder α] (a n : List α)
    (predicate : List α → Bool) (result : Bool) (forward backward mid : List α) :
    Prop where
  lenF : forward.length = a.length
  lenB : backward.length = a.length
  lenM : mid.length = a.length
  predF : predicate forward = !result
  predM : predicate mid = result
  chEB : ∀ i, i < a.length →
    RleR result a n i (endB result a n i) (backward.getD i default)
  chBM : ∀ i, i < a.length →
    RleR result a n i (backward.getD i default) (mid.getD i default)
  chMF : ∀ i, i < a.length →
    RleR result a n i (mid.getD i default) (forward.getD i default)
  chFE : ∀ i, i < a.length →
    RleR result a n i (forward.getD i default) (endF result a n i)

theorem inBox_of_chain [Inhabited α] [LinearOrder α] {a n : List α} (r : Bool)
    {x : List α}
    (h1 : ∀ i, i < a.length → RleR r a n i (endB r a n i) (x.getD i default))
    (h2 : ∀ i, i < a.length → RleR r a n i (x.getD i default) (endF r a n i)) :
    InBox a n x := by
  cases r
  · exact ⟨fun i hi => by simpa [RleR, endF] using h2 i hi,
      fun i hi => by simpa [RleR, endB] using h1 i hi⟩
  · exact ⟨fun i hi => by simpa [RleR, endB] using h1 i hi,
      fun i hi => by simpa [RleR, endF] using h2 i hi⟩

/-- Monotonicity, reoriented by the `result` flag: a point weakly on the
backward side of a `result`-classified point classifies as `result` too. -/
theorem mono_result [Inhabited α] [LinearOrder α] {a n : List α}
    {predicate : List α → Bool} (hm : MonotonePred a n predicate) (r : Bool)
    {x y : List α} (hx : x.length = a.length) (hy : y.length = a.length)
    (hbx : InBox a n x) (hby : InBox a n y)
    (hxy : ∀ i, i < a.length → RleR r a n i (x.getD i default) (y.getD i default))
    (hpy : predicate y = r) : predicate x = r := by
  cases r
  · by_contra hc
    have hx' : predicate x = true := by revert hc; cases predicate x <;> simp
    have hy' : predicate y = true :=
      hm y x hy hx hby hbx (fun i hi => by simpa [RleR] using hxy i hi) hx'
    rw [hpy] at hy'
    cases hy'
  · exact hm x y hx hy hbx hby (fun i hi => by simpa [RleR] using hxy i hi) hpy

/-- The full division yielded first by `divide` satisfies the Division
invariant whenever the call invariant holds. -/
theorem fullDivision_divInv [Inhabited α] [LinearOrder α] {a n : List α}
    {predicate : List α → Bool} {r : Bool} {forward backward mid : List α}
    (h : DivideInv a n predicate r forward backward mid) :
    DivInv a n predicate (fullDivision r mid forward) := by
  cases r
  · refine ⟨h.lenF, h.lenM, ?_, ?_, ?_, ?_, ?_⟩ <;>
      simp only [fullDivision, Bool.false_eq_true, if_false]
    · simpa using h.predF
    · exact h.predM
    · exact fun i hi => by simpa [RleR, endF] using h.chFE i hi
    · exact fun i hi => by simpa [RleR] using h.chMF i hi
    · exact fun i hi =>
        rle_trans (by simpa [RleR] using h.chBM i hi)
          (by simpa [RleR, endB] using h.chEB i hi)
  · refine ⟨h.lenM, h.lenF, ?_, ?_, ?_, ?_, ?_⟩ <;>
      simp only [fullDivision, if_true]
    · exact h.predM
    · simpa using h.predF
    · exact fun i hi =>
        rle_trans (by simpa [RleR, endB] using h.chEB i hi)
          (by simpa [RleR] using h.chBM i hi)
    · exact fun i hi => by simpa [RleR] using h.chMF i hi
    · exact fun i hi => by simpa [RleR, endF] using h.chFE i hi

/-- The call invariant carries over to the recursive `divide` call on a
non-pruned omission: `(omitted, backward, counter)` satisfies it again. -/
theorem divideInv_step [Inhabited α] [LinearOrder α] {a n : List α}
    {predicate : List α → Bool} {r : Bool} {forward backward mid : List α} {k : Nat}
    (hm : MonotonePred a n predicate)
    (h : DivideInv a n predicate r forward backward mid) (hk : k < a.length)
    (hno : ¬ predicate (vectorWith forward k (mid.getD k default)) = r) :
    DivideInv a n predicate r (vectorWith forward k (mid.getD k default)) backward
      (vectorWith mid k (backward.getD k default)) := by
  have hkf : k < forward.length := h.lenF ▸ hk
  have hkm : k < mid.length := h.lenM ▸ hk
  have gOm : ∀ j, j < a.length →
      (vectorWith forward k (mid.getD k default)).getD j default =
        if k = j then mid.getD k default else forward.getD j default := by
    intro j _
    by_cases hkj : k = j
    · subst hkj; rw [getD_vectorWith_self _ _ _ hkf, if_pos rfl]
    · rw [getD_vectorWith_ne _ _ hkj, if_neg hkj]
  have gCo : ∀ j, j < a.length →
      (vectorWith mid k (backward.getD k default)).getD j default =
        if k = j then backward.getD k default else mid.getD j default := by
    intro j _
    by_cases hkj : k = j
    · subst hkj; rw [getD_vectorWith_self _ _ _ hkm, if_pos rfl]
    · rw [getD_vectorWith_ne _ _ hkj, if_neg hkj]
  have chEBc : ∀ j, j < a.length → RleR r a n j (endB r a n j)
      ((vectorWith mid k (backward.getD k default)).getD j default) := by
    intro j hj
    rw [gCo j hj]
    by_cases hkj : k = j
    · subst hkj; rw [if_pos rfl]; exact h.chEB k hj
    · rw [if_neg hkj]; exact rler_trans (h.chEB j hj) (h.chBM j hj)
  have chCFc : ∀ j, j < a.length →
      RleR r a n j ((vectorWith mid k (backward.getD k default)).getD j default)
        (endF r a n j) := by
    intro j hj
    rw [gCo j hj]
    by_cases hkj : k = j
    · subst hkj; rw [if_pos rfl]
      exact rler_trans (h.chBM k hj) (rler_trans (h.chMF k hj) (h.chFE k hj))
    · rw [if_neg hkj]; exact rler_trans (h.chMF j hj) (h.chFE j hj)
  have hlenCo : (vectorWith mid k (backward.getD k default)).length = a.length := by
    rw [length_vectorWith]; exact h.lenM
  have hPredCo : predicate (vectorWith mid k (backward.getD k default)) = r := by
    refine mono_result hm r hlenCo h.lenM (inBox_of_chain r chEBc chCFc)
      (inBox_of_chain r
        (fun j hj => rler_trans (h.chEB j hj) (h.chBM j hj))
        (fun j hj => rler_trans (h.chMF j hj) (h.chFE j hj)))
      ?_ h.predM
    intro j hj
    rw [gCo j hj]
    by_cases hkj : k = j
    · subst hkj; rw [if_pos rfl]; exact h.chBM k hj
    · rw [if_neg hkj]; exact rler_refl r a n j _
  refine ⟨by rw [length_vectorWith]; exact h.lenF, h.lenB, hlenCo, ?_, hPredCo,
    h.chEB, ?_, ?_, ?_⟩
  · revert hno
    cases hpo : predicate (vectorWith forward k (mid.getD k default)) <;>
      cases r <;> simp
  · intro j hj
    rw [gCo j hj]
    by_cases hkj : k = j
    · subst hkj; rw [if_pos rfl]; exact rler_refl r a n k _
    · rw [if_neg hkj]; exact h.chBM j hj
  · intro j hj
    rw [gCo j hj, gOm j hj]
    by_cases hkj : k = j
    · subst hkj; rw [if_pos rfl, if_pos rfl]; exact h.chBM k hj
    · rw [if_neg hkj, if_neg hkj]; exact h.chMF j hj
  · intro j hj
    rw [gOm j hj]
    by_cases hkj : k = j
    · subst hkj; rw [if_pos rfl]; exact rler_trans (h.chMF k hj) (h.chFE k hj)
    · rw [if_neg hkj]; exact h.chFE j hj

/-- Every division produced by the omission loop satisfies the Division
invariant. -/
theorem divideGo_divInv [Inhabited α] [LinearOrder α] {a n : List α}
    {predicate : List α → Bool} (hm : MonotonePred a n predicate)
    (comps : List Nat) {r : Bool} {backward : List α} (forward mid : List α)
    (hinv : DivideInv a n predicate r forward backward mid)
    (hc : ∀ i ∈ comps, i < a.length) :
    ∀ d ∈ divideGo predicate comps forward backward mid r, DivInv a n predicate d := by
  induction comps generalizing forward mid with
  | nil => intro d hd; simp [divideGo] at hd
  | cons k rest ih =>
    intro d hd
    have hk : k < a.length := hc k (List.mem_cons_self k rest)
    have hcr : ∀ i ∈ rest, i < a.length := fun i hi => hc i (List.mem_cons_of_mem k hi)
    simp only [divideGo] at hd
    by_cases hp : predicate (vectorWith forward k (mid.getD k default)) = r
    · rw [if_pos hp] at hd
      exact ih forward mid hinv hcr d hd
    · rw [if_neg hp] at hd
      have hstep := divideInv_step hm hinv hk hp
      rcases List.mem_append.mp hd with h1 | h2
      · rcases List.mem_cons.mp h1 with h3 | h4
        · subst h3; exact fullDivision_divInv hstep
        · exact ih _ _ hstep hcr d h4
      · exact ih forward mid hinv hcr d h2

/-- Every division yielded by `divide` satisfies the Division invariant. -/
theorem divide_divInv [Inhabited α] [LinearOrder α] {a n : List α}
    {predicate : List α → Bool} (hm : MonotonePred a n predicate)
    (comps : List Nat) {r : Bool} {backward : List α} (forward mid : List α)
    (hinv : DivideInv a n predicate r forward backward mid)
    (hc : ∀ i ∈ comps, i < a.length) :
    ∀ d ∈ divide predicate forward backward mid r comps, DivInv a n predicate d := by
  intro d hd
  rcases List.mem_cons.mp hd with h1 | h2
  · subst h1; exact fullDivision_divInv hinv
  · exact divideGo_divInv hm comps forward mid hinv hc d h2

/-- The midpoint vector of a driver step sits between the corners of its
division on every axis. -/
theorem createMidpoint_between [Inhabited α] [LinearOrder α] {a n : List α}
    {midpoint : List (α → α → α)} (hv : MidpointValid a n midpoint)
    (hmp : midpoint.length = a.length) {predicate : List α → Bool}
    {division : Division α} (hd : DivInv a n predicate division) (comps : List Nat) :
    ∀ j, j < a.length →
      Rle a n j (division.always.getD j default)
          ((createMidpoint midpoint division comps).getD j default) ∧
        Rle a n j ((createMidpoint midpoint division comps).getD j default)
          (division.never.getD j default) := by
  intro j hj
  rw [getD_createMidpoint _ _ _ (hmp ▸ hj)]
  by_cases hcj : comps.contains j
  · rw [if_pos hcj]
    exact hv j hj _ _ (hd.leAN j hj)
  · rw [if_neg hcj]
    exact ⟨rle_refl a n j _, hd.leAN j hj⟩

/-- A driver step establishes the `divide` call invariant. -/
theorem dfs_step_divideInv [Inhabited α] [LinearOrder α] {a n : List α}
    {predicate : List α → Bool} {midpoint : List (α → α → α)}
    {division : Division α} {comps : List Nat}
    (hv : MidpointValid a n midpoint) (hmp : midpoint.length = a.length)
    (hd : DivInv a n predicate division) (r : Bool)
    (hr : predicate (createMidpoint midpoint division comps) = r) :
    DivideInv a n predicate r
      (if r then division.never else division.always)
      (if r then division.always else division.never)
      (createMidpoint midpoint division comps) := by
  have hbet := createMidpoint_between hv hmp hd comps
  cases r
  · refine ⟨hd.lenA, hd.lenN, by rw [length_createMidpoint]; exact hmp, by simpa using hd.predA,
      hr, ?_, ?_, ?_, ?_⟩ <;> intro j hj <;>
      simp only [RleR, endB, endF, if_false, ite_false, Bool.false_eq_true]
    · exact hd.leNN j hj
    · exact (hbet j hj).2
    · exact (hbet j hj).1
    · exact hd.leAA j hj
  · refine ⟨hd.lenN, hd.lenA, by rw [length_createMidpoint]; exact hmp, by simpa using hd.predN,
      hr, ?_, ?_, ?_, ?_⟩ <;> intro j hj <;>
      simp only [RleR, endB, endF, if_true, ite_true]
    · exact hd.leAA j hj
    · exact (hbet j hj).1
    · exact (hbet j hj).2
    · exact hd.leNN j hj

/-- Outputs of the division loop satisfy `Q` when every division satisfies
`P` and `P`-searches only output `Q`-vectors. -/
theorem dfsList_sound {α : Type} (f : Division α → Option (List (List α)))
    (P : Division α → Prop) (Q : List α → Prop)
    (hf : ∀ d, P d → ∀ o, f d = some o → ∀ v ∈ o, Q v) :
    ∀ (ds : List (Division α)) (out : List (List α)), (∀ d ∈ ds, P d) →
      dfsList f ds = some out → ∀ v ∈ out, Q v := by
  intro ds
  induction ds with
  | nil =>
    intro out _ h v hv
    simp only [dfsList, Option.some.injEq] at h
    subst h
    exact absurd hv (List.not_mem_nil v)
  | cons d ds ih =>
    intro out hP h v hv
    rw [dfsList] at h
    cases hfd : f d with
    | none => rw [hfd] at h; simp at h
    | some r =>
      rw [hfd] at h
      cases hds : dfsList f ds with
      | none => rw [hds] at h; simp at h
      | some rs =>
        rw [hds] at h
        simp only [Option.some_bind, Option.map_some', Option.some.injEq] at h
        subst h
        rcases List.mem_append.mp hv with h1 | h2
        · exact hf d (hP d (List.mem_cons_self d ds)) r hfd v h1
        · exact ih rs (fun d' hd' => hP d' (List.mem_cons_of_mem d hd')) hds v h2

/-- Soundness of the driver: under the spec preconditions, every vector it
yields satisfies the predicate. -/
theorem dfs_sound [Inhabited α] [LinearOrder α] {a n : List α}
    {predicate : List α → Bool} {midpoint : List (α → α → α)}
    {shouldContinue : List (α → α → Bool)}
    (hm : MonotonePred a n predicate) (hv : MidpointValid a n midpoint)
    (hmp : midpoint.length = a.length) :
    ∀ (fuel : Nat) (division : Division α) (comps : List Nat) (out : List (List α)),
      DivInv a n predicate division → (∀ i ∈ comps, i < a.length) →
      dfsBinarySearch predicate midpoint shouldContinue fuel division comps = some out →
      ∀ v ∈ out, predicate v = true := by
  intro fuel
  induction fuel with
  | zero =>
    intro division comps out _ _ h
    rw [dfsBinarySearch] at h
    cases h
  | succ fuel ih =>
    intro division comps out hd hc h
    simp only [dfsBinarySearch] at h
    by_cases he : (createShouldContinue shouldContinue division comps).isEmpty
    · rw [if_pos he] at h
      injection h with h
      subst h
      intro v hv
      rcases List.mem_singleton.mp hv with h1
      subst h1
      exact hd.predA
    · rw [if_neg he] at h
      have hcs : ∀ i ∈ createShouldContinue shouldContinue division comps,
          i < a.length := by
        intro i hi
        exact hc i (List.mem_filter.mp hi).1
      exact dfsList_sound _ (DivInv a n predicate) (fun v => predicate v = true)
        (fun d hPd o ho v hv => ih d _ o hPd hcs ho v hv) _ out
        (divide_divInv hm _ _ _
          (dfs_step_divideInv hv hmp hd
            (predicate (createMidpoint midpoint division
              (createShouldContinue shouldContinue division comps))) rfl)
          hcs)
        h

/-- C1: containment — under the documented preconditions (equal lengths,
`predicate(alwaysEnd) = true`, `predicate(neverEnd) = false`, spec §3
monotonicity on the box, midpoints landing inside the per-axis interval),
every vector yielded by a complete run of `ndBinarySearch` satisfies the
predicate. -/
theorem c1_containment [Inhabited α] [LinearOrder α] (fuel : Nat)
    (alwaysEnd neverEnd : List α) (predicate : List α → Bool)
    (midpoint : List (α → α → α)) (shouldContinue : List (α → α → Bool))
    (out : List (List α))
    (hlen1 : alwaysEnd.length = neverEnd.length)
    (hlen2 : neverEnd.length = midpoint.length)
    (hlen3 : midpoint.length = shouldContinue.length)
    (hA : predicate alwaysEnd = true) (hN : predicate neverEnd = false)
    (hm : MonotonePred alwaysEnd neverEnd predicate)
    (hv : MidpointValid alwaysEnd neverEnd midpoint)
    (h : ndBinarySearch fuel alwaysEnd neverEnd predicate midpoint shouldContinue =
      Except.ok (some out)) :
    ∀ v ∈ out, predicate v = true := by
  rw [ndBinarySearch, if_neg (by push_neg; exact ⟨hlen1, hlen2, hlen3⟩)] at h
  injection h with h
  refine dfs_sound hm hv (hlen2 ▸ hlen1).symm fuel ⟨alwaysEnd, neverEnd⟩
    (List.range alwaysEnd.length) out
    ⟨rfl, hlen1.symm, hA, hN, vecle_refl _ _ _,
      fun i _ => rle_ends alwaysEnd neverEnd i, vecle_refl _ _ _⟩
    (fun i hi => List.mem_range.mp hi) h

/-- The demo predicate for the witnesses: the 1-D boundary of `x < 2`. -/
def demoPred (v : List Int) : Bool :=
  decide (v.getD 0 0 < 2)

theorem demoPred_mono : MonotonePred [(0 : Int)] [4] demoPred := by
  intro x y _ _ _ _ hxy hpy
  have h0 := hxy 0 (by simp)
  rw [Rle, List.getD_cons_zero, List.getD_cons_zero, if_pos (by norm_num)] at h0
  simp only [Int.default_eq_zero] at h0
  simp only [demoPred, decide_eq_true_eq] at hpy ⊢
  omega

theorem demoMid_valid : MidpointValid [(0 : Int)] [4] [integerMidpoint] := by
  intro i hi p q hpq
  have hi0 : i = 0 := by simpa using hi
  subst hi0
  rw [Rle, List.getD_cons_zero, List.getD_cons_zero, if_pos (by norm_num)] at hpq
  constructor <;>
    rw [Rle, List.getD_cons_zero, List.getD_cons_zero, if_pos (by norm_num)] <;>
    simp only [List.getD_cons_zero, integerMidpoint] <;>
    rw [Int.fdiv_eq_ediv _ (by norm_num)] <;>
    omega

theorem demoMid_strict :
    MidpointStrict [(0 : Int)] [4] [integerMidpoint] [gapContinue] := by
  intro i hi p q hcq hpq
  have hi0 : i = 0 := by simpa using hi
  subst hi0
  rw [Rle, List.getD_cons_zero, List.getD_cons_zero, if_pos (by norm_num)] at hpq
  simp only [List.getD_cons_zero, gapContinue, decide_eq_true_eq] at hcq
  constructor <;>
    simp only [List.getD_cons_zero, integerMidpoint] <;>
    rw [Int.fdiv_eq_ediv _ (by norm_num)] <;>
    omega

/-- Witness for C1: the 1-D demo run terminates with output `[[1]]` and the
theorem applies, so its sole output satisfies the predicate. -/
theorem c1_containment_witness :
    ndBinarySearch 8 [(0 : Int)] [4] demoPred [integerMidpoint] [gapContinue] =
        Except.ok (some [[1]]) ∧
      ∀ v ∈ [[(1 : Int)]], demoPred v = true :=
  ⟨rfl, c1_containment 8 [0] [4] demoPred [integerMidpoint] [gapContinue] [[1]]
    rfl rfl rfl (by decide) (by decide) demoPred_mono demoMid_valid rfl⟩

/-- Entries of the instrumented division loop satisfy `Q` when every listed
division satisfies `P`, a `P`-division makes a `Q`-entry with the current
component set, and `P`-subtraces only hold `Q`-entries. -/
theorem dfsCallsList_inv {α : Type} (trace : Division α → List (Division α × List Nat))
    (P : Division α → Prop) (Q : Division α × List Nat → Prop) (comps : List Nat)
    (hf : ∀ d, P d → ∀ p ∈ trace d, Q p)
    (hQ : ∀ d, P d → Q (d, comps)) :
    ∀ ds : List (Division α), (∀ d ∈ ds, P d) →
      ∀ p ∈ dfsCallsList trace comps ds, Q p := by
  intro ds
  induction ds with
  | nil => intro _ p hp; simp [dfsCallsList] at hp
  | cons d ds ih =>
    intro hP p hp
    rw [dfsCallsList] at hp
    rcases List.mem_append.mp hp with h1 | h2
    · rcases List.mem_cons.mp h1 with h3 | h4
      · subst h3; exact hQ d (hP d (List.mem_cons_self d ds))
      · exact hf d (hP d (List.mem_cons_self d ds)) p h4
    · exact ih (fun d' hd' => hP d' (List.mem_cons_of_mem d hd')) p h2

/-- Every division on which the driver is recursively invoked — equivalently,
every division yielded by `divide` during the run — satisfies the Division
invariant. -/
theorem dfsCalls_inv [Inhabited α] [LinearOrder α] {a n : List α}
    {predicate : List α → Bool} {midpoint : List (α → α → α)}
    {shouldContinue : List (α → α → Bool)}
    (hm : MonotonePred a n predicate) (hv : MidpointValid a n midpoint)
    (hmp : midpoint.length = a.length) :
    ∀ (fuel : Nat) (division : Division α) (comps : List Nat),
      DivInv a n predicate division → (∀ i ∈ comps, i < a.length) →
      ∀ p ∈ dfsCalls predicate midpoint shouldContinue fuel division comps,
        DivInv a n predicate p.1 := by
  intro fuel
  induction fuel with
  | zero => intro division comps _ _ p hp; simp [dfsCalls] at hp
  | succ fuel ih =>
    intro division comps hd hc p hp
    simp only [dfsCalls] at hp
    by_cases he : (createShouldContinue shouldContinue division comps).isEmpty
    · rw [if_pos he] at hp
      simp at hp
    · rw [if_neg he] at hp
      have hcs : ∀ i ∈ createShouldContinue shouldContinue division comps,
          i < a.length := fun i hi => hc i (List.mem_filter.mp hi).1
      exact dfsCallsList_inv _ (DivInv a n predicate) (fun p => DivInv a n predicate p.1)
        _ (fun d hPd p hp' => ih d _ hPd hcs p hp') (fun d hPd => hPd) _
        (divide_divInv hm _ _ _
          (dfs_step_divideInv hv hmp hd
            (predicate (createMidpoint midpoint division
              (createShouldContinue shouldContinue division comps))) rfl)
          hcs)
        p hp

/-- C4: under the caller preconditions, every Division ever constructed
during the recursion — the initial one and every division yielded by
`divide` and passed to a recursive driver call (the trace collects exactly
these) — satisfies `predicate(always) = true` and `predicate(never) = false`. -/
theorem c4_division_invariant [Inhabited α] [LinearOrder α] (fuel : Nat)
    (alwaysEnd neverEnd : List α) (predicate : List α → Bool)
    (midpoint : List (α → α → α)) (shouldContinue : List (α → α → Bool))
    (hlen1 : alwaysEnd.length = neverEnd.length)
    (hmp : midpoint.length = alwaysEnd.length)
    (hA : predicate alwaysEnd = true) (hN : predicate neverEnd = false)
    (hm : MonotonePred alwaysEnd neverEnd predicate)
    (hv : MidpointValid alwaysEnd neverEnd midpoint) :
    ∀ p ∈ (⟨⟨alwaysEnd, neverEnd⟩, List.range alwaysEnd.length⟩ ::
        dfsCalls predicate midpoint shouldContinue fuel ⟨alwaysEnd, neverEnd⟩
          (List.range alwaysEnd.length) : List (Division α × List Nat)),
      predicate p.1.always = true ∧ predicate p.1.never = false := by
  intro p hp
  rcases List.mem_cons.mp hp with h1 | h2
  · subst h1; exact ⟨hA, hN⟩
  · have := dfsCalls_inv hm hv hmp fuel ⟨alwaysEnd, neverEnd⟩
      (List.range alwaysEnd.length)
      ⟨rfl, hlen1.symm, hA, hN, vecle_refl _ _ _,
        fun i _ => rle_ends alwaysEnd neverEnd i, vecle_refl _ _ _⟩
      (fun i hi => List.mem_range.mp hi) p h2
    exact ⟨this.predA, this.predN⟩

/-- Witness for C4 at the 1-D demo inputs: the invariant holds at every
recorded call of the concrete run. -/
theorem c4_division_invariant_witness :
    ((⟨⟨[(0 : Int)], [4]⟩, List.range 1⟩ ::
        dfsCalls demoPred [integerMidpoint] [gapContinue] 8 ⟨[0], [4]⟩
          (List.range 1) : List (Division Int × List Nat)).all
      fun p => demoPred p.1.always && !demoPred p.1.never) = true := by
  have h := c4_division_invariant 8 [(0 : Int)] [4] demoPred [integerMidpoint]
    [gapContinue] rfl rfl (by decide) (by decide) demoPred_mono demoMid_valid
  rw [List.all_eq_true]
  intro p hp
  have hpq := h p hp
  rw [hpq.1, hpq.2]
  rfl

/-- C8: active-set monotonicity.  First, the active set computed by a driver
step is exactly the filter of its parent set through the per-dimension
continuations (so it is a subset of the parent set, and all the sibling
recursive calls of one step receive this same set — in the functional
embedding no set is ever mutated).  Second, along every recursion path the
sets are non-increasing: every recorded recursive call below a call with
component set `comps` receives a set whose members all lie in `comps`. -/
theorem c8_active_set_monotone [Inhabited α] (predicate : List α → Bool)
    (midpoint : List (α → α → α)) (shouldContinue : List (α → α → Bool)) :
    (∀ (division : Division α) (comps : List Nat) (i : Nat),
        i ∈ createShouldContinue shouldContinue division comps ↔
          i ∈ comps ∧ (shouldContinue.getD i default)
            (division.always.getD i default) (division.never.getD i default) = true) ∧
      ∀ (fuel : Nat) (division : Division α) (comps : List Nat),
        ∀ p ∈ dfsCalls predicate midpoint shouldContinue fuel division comps,
          ∀ i ∈ p.2, i ∈ comps := by
  constructor
  · intro division comps i
    simp [createShouldContinue, List.mem_filter]
  · intro fuel
    induction fuel with
    | zero => intro division comps p hp; simp [dfsCalls] at hp
    | succ fuel ih =>
      intro division comps p hp
      simp only [dfsCalls] at hp
      by_cases he : (createShouldContinue shouldContinue division comps).isEmpty
      · rw [if_pos he] at hp
        simp at hp
      · rw [if_neg he] at hp
        refine dfsCallsList_inv _ (fun _ => True) (fun q => ∀ i ∈ q.2, i ∈ comps) _
          ?_ ?_ _ (fun _ _ => trivial) p hp
        · intro d _ q hq i hi
          exact (List.mem_filter.mp (ih d _ q hq i hi)).1
        · intro d _ i hi
          exact (List.mem_filter.mp hi).1

/-- In one dimension the driver coincides step for step with the scalar
refinement loop: the omission of the only axis always reproduces the
midpoint vector, so it is always pruned, and each step keeps exactly the
full division — the scalar update. -/
theorem dfs_one_dim [Inhabited α] (p : α → Bool) (m : α → α → α) (c : α → α → Bool) :
    ∀ (fuel : Nat) (a0 n0 : α),
      dfsBinarySearch (fun v => p (v.getD 0 default)) [m] [c] (fuel + 1)
          ⟨[a0], [n0]⟩ [0] =
        (bsgLoop p m c fuel a0 n0).map (fun s => [[s]]) := by
  intro fuel
  induction fuel with
  | zero =>
    intro a0 n0
    cases hc : c a0 n0 <;>
      simp [dfsBinarySearch, bsgLoop, createShouldContinue, createMidpoint,
        divide, divideGo, fullDivision, vectorWith, dfsList, hc]
  | succ fuel ih =>
    intro a0 n0
    cases hc : c a0 n0
    · simp [dfsBinarySearch, bsgLoop, createShouldContinue, hc]
    · cases hr : p (m a0 n0)
      · simpa [dfsBinarySearch, bsgLoop, createShouldContinue, createMidpoint,
          divide, divideGo, fullDivision, vectorWith, dfsList, hc, hr]
          using ih a0 (m a0 n0)
      · simpa [dfsBinarySearch, bsgLoop, createShouldContinue, createMidpoint,
          divide, divideGo, fullDivision, vectorWith, dfsList, hc, hr]
          using ih (m a0 n0) n0

/-- C6: for D = 1 inputs satisfying the scalar endpoint preconditions, a
complete run of `ndBinarySearch` yields exactly one vector, and its single
component is the value computed by the scalar `binarySearchGeneralized`
(run in its default `"check"` mode) with the same endpoints, predicate,
midpoint and continuation. -/
theorem c6_degenerate_one_dim [Inhabited α] (fuel : Nat) (a0 n0 : α)
    (p : α → Bool) (m : α → α → α) (c : α → α → Bool) (out : List (List α))
    (hA : p a0 = true) (hN : p n0 = false)
    (h : ndBinarySearch (fuel + 1) [a0] [n0] (fun v => p (v.getD 0 default)) [m] [c] =
      Except.ok (some out)) :
    ∃ s, binarySearchGeneralized fuel a0 n0 p m c Safety.check =
        Except.ok (some s) ∧ out = [[s]] := by
  rw [ndBinarySearch, if_neg (by simp)] at h
  injection h with h
  rw [show List.range [a0].length = [0] from rfl, dfs_one_dim p m c fuel a0 n0] at h
  cases hb : bsgLoop p m c fuel a0 n0 with
  | none => rw [hb] at h; cases h
  | some s =>
    rw [hb] at h
    injection h with h
    refine ⟨s, ?_, h.symm⟩
    rw [binarySearchGeneralized, if_pos rfl, if_neg (by rw [hA]; simp),
      if_neg (by rw [hN]; simp), hb]

/-- The scalar demo predicate for the C6 witness. -/
def demoScalarPred (x : Int) : Bool :=
  decide (x < 2)

/-- Witness for C6: on the concrete 1-D instance (`x < 2` between 0 and 4)
the generator yields exactly `[[1]]` and the scalar search returns `1`. -/
theorem c6_degenerate_one_dim_witness :
    demoScalarPred 0 = true ∧ demoScalarPred 4 = false ∧
      ndBinarySearch 6 [(0 : Int)] [4] (fun v => demoScalarPred (v.getD 0 default))
          [integerMidpoint] [gapContinue] = Except.ok (some [[1]]) ∧
      ∃ s, binarySearchGeneralized 5 (0 : Int) 4 demoScalarPred integerMidpoint
          gapContinue Safety.check = Except.ok (some s) ∧ [[(1 : Int)]] = [[s]] :=
  ⟨by decide, by decide, rfl,
    c6_degenerate_one_dim 5 0 4 demoScalarPred integerMidpoint gapContinue [[1]]
      (by decide) (by decide) rfl⟩

/-- One `getD` equation for `vectorWith` combining both index cases. -/
theorem getD_vectorWith [Inhabited α] (x : List α) (k j : Nat) (val : α)
    (hk : k < x.length) :
    (vectorWith x k val).getD j default =
      if k = j then val else x.getD j default := by
  by_cases hkj : k = j
  · subst hkj; rw [getD_vectorWith_self _ _ _ hk, if_pos rfl]
  · rw [getD_vectorWith_ne _ _ hkj, if_neg hkj]

/-- Region order on divisions: `DivLe a n dOut dIn` says the box of `dIn`
sits inside the box of `dOut` (both corners move toward each other), and on
every axis where `dOut` is non-degenerate, `dIn` either pulls its never
corner strictly inward or stays non-degenerate itself.  Taking
`dIn = ⟨v, v⟩` this says `v` lies in the half-open region of `dOut`: inside
its box and away from the never corner on every non-degenerate axis. -/
def DivLe [Inhabited α] [LinearOrder α] (a n : List α) (dOut dIn : Division α) :
    Prop :=
  ∀ i, i < a.length →
    Rle a n i (dOut.always.getD i default) (dIn.always.getD i default) ∧
    Rle a n i (dIn.never.getD i default) (dOut.never.getD i default) ∧
    (dOut.always.getD i default ≠ dOut.never.getD i default →
      (dIn.never.getD i default ≠ dOut.never.getD i default ∨
        dIn.always.getD i default ≠ dIn.never.getD i default))

theorem divle_trans [Inhabited α] [LinearOrder α] {a n : List α}
    {d1 d2 d3 : Division α} (h12 : DivLe a n d1 d2) (h23 : DivLe a n d2 d3) :
    DivLe a n d1 d3 := by
  intro i hi
  obtain ⟨a12, n12, s12⟩ := h12 i hi
  obtain ⟨a23, n23, s23⟩ := h23 i hi
  refine ⟨rle_trans a12 a23, rle_trans n23 n12, ?_⟩
  intro hne1
  rcases s12 hne1 with h1 | h2
  · left
    intro he
    exact h1 (rle_antisymm n12 (he ▸ n23))
  · rcases s23 h2 with h3 | h4
    · left
      intro he
      exact h3 (rle_antisymm n23 (he ▸ n12))
    · right
      exact h4

/-- The parent region of a `divide` call, in always/never orientation. -/
def parentDiv (r : Bool) (forward backward : List α) : Division α :=
  if r then ⟨backward, forward⟩ else ⟨forward, backward⟩

/-- The full division lies inside the parent region of its `divide` call. -/
theorem head_divLe [Inhabited α] [LinearOrder α] {a n : List α}
    {predicate : List α → Bool} {r : Bool} {forward backward mid : List α}
    (hinv : DivideInv a n predicate r forward backward mid)
    (hstr : r = true → ∀ i, i < a.length →
      backward.getD i default ≠ forward.getD i default →
      mid.getD i default ≠ forward.getD i default) :
    DivLe a n (parentDiv r forward backward) (fullDivision r mid forward) := by
  intro i hi
  cases r
  · simp only [parentDiv, fullDivision, Bool.false_eq_true, if_false]
    refine ⟨rle_refl a n i _, by simpa [RleR] using hinv.chBM i hi, ?_⟩
    intro hne
    by_cases hfm : forward.getD i default = mid.getD i default
    · exact Or.inl (fun he => hne (by rw [hfm, he]))
    · exact Or.inr hfm
  · simp only [parentDiv, fullDivision, if_true]
    refine ⟨by simpa [RleR] using hinv.chBM i hi, rle_refl a n i _, ?_⟩
    intro hne
    exact Or.inr (hstr rfl i hi hne)

/-- A non-pruned omission step shrinks the parent region: the region of the
recursive call sits inside the region of the current call. -/
theorem onestep_divLe [Inhabited α] [LinearOrder α] {a n : List α}
    {predicate : List α → Bool} {r : Bool} {forward backward mid : List α} {k : Nat}
    (hinv : DivideInv a n predicate r forward backward mid) (hk : k < a.length)
    (hsk : backward.getD k default ≠ mid.getD k default ∧
      mid.getD k default ≠ forward.getD k default) :
    DivLe a n (parentDiv r forward backward)
      (parentDiv r (vectorWith forward k (mid.getD k default)) backward) := by
  have hkf : k < forward.length := hinv.lenF ▸ hk
  intro i hi
  cases r
  · simp only [parentDiv, Bool.false_eq_true, if_false]
    refine ⟨?_, rle_refl a n i _, ?_⟩
    · rw [getD_vectorWith _ _ _ _ hkf]
      by_cases hkj : k = i
      · subst hkj
        rw [if_pos rfl]
        simpa [RleR] using hinv.chMF k hi
      · rw [if_neg hkj]
        exact rle_refl a n i _
    · intro hne
      right
      rw [getD_vectorWith _ _ _ _ hkf]
      by_cases hkj : k = i
      · subst hkj
        rw [if_pos rfl]
        exact fun he => hsk.1 he.symm
      · rw [if_neg hkj]
        exact hne
  · simp only [parentDiv, if_true]
    refine ⟨rle_refl a n i _, ?_, ?_⟩
    · rw [getD_vectorWith _ _ _ _ hkf]
      by_cases hkj : k = i
      · subst hkj
        rw [if_pos rfl]
        simpa [RleR] using hinv.chMF k hi
      · rw [if_neg hkj]
        exact rle_refl a n i _
    · intro hne
      rw [getD_vectorWith _ _ _ _ hkf]
      by_cases hkj : k = i
      · subst hkj
        rw [if_pos rfl]
        exact Or.inl hsk.2
      · rw [if_neg hkj]
        exact Or.inr hne

/-- The inner-call strictness data of a non-pruned omission step. -/
theorem step_strict [Inhabited α] [LinearOrder α] {a n : List α}
    {predicate : List α → Bool} {r : Bool} {forward backward mid : List α}
    {k : Nat} {rest : List Nat}
    (hinv : DivideInv a n predicate r forward backward mid) (hk : k < a.length)
    (hknr : k ∉ rest)
    (hs : ∀ j ∈ k :: rest, backward.getD j default ≠ mid.getD j default ∧
      mid.getD j default ≠ forward.getD j default)
    (hstr : r = true → ∀ i, i < a.length →
      backward.getD i default ≠ forward.getD i default →
      mid.getD i default ≠ forward.getD i default) :
    (∀ j ∈ rest,
        backward.getD j default ≠
          (vectorWith mid k (backward.getD k default)).getD j default ∧
        (vectorWith mid k (backward.getD k default)).getD j default ≠
          (vectorWith forward k (mid.getD k default)).getD j default) ∧
      (r = true → ∀ i, i < a.length →
        backward.getD i default ≠
          (vectorWith forward k (mid.getD k default)).getD i default →
        (vectorWith mid k (backward.getD k default)).getD i default ≠
          (vectorWith forward k (mid.getD k default)).getD i default) := by
  have hkf : k < forward.length := hinv.lenF ▸ hk
  have hkm : k < mid.length := hinv.lenM ▸ hk
  constructor
  · intro j hj
    have hjk : k ≠ j := fun he => hknr (he ▸ hj)
    rw [getD_vectorWith _ _ _ _ hkm, getD_vectorWith _ _ _ _ hkf,
      if_neg hjk, if_neg hjk]
    exact hs j (List.mem_cons_of_mem k hj)
  · intro hr i hi
    rw [getD_vectorWith _ _ _ _ hkm, getD_vectorWith _ _ _ _ hkf]
    by_cases hkj : k = i
    · subst hkj
      rw [if_pos rfl, if_pos rfl]
      exact fun h => h
    · rw [if_neg hkj, if_neg hkj]
      exact hstr hr i hi

/-- Every division yielded by `divide` lies (in the `DivLe` region order)
inside the parent region of the call. -/
theorem divide_divLe [Inhabited α] [LinearOrder α] {a n : List α}
    {predicate : List α → Bool} (hm : MonotonePred a n predicate)
    (comps : List Nat) {r : Bool} {backward : List α} (forward mid : List α)
    (hinv : DivideInv a n predicate r forward backward mid)
    (hc : ∀ i ∈ comps, i < a.length) (hnd : comps.Nodup)
    (hs : ∀ k ∈ comps, backward.getD k default ≠ mid.getD k default ∧
      mid.getD k default ≠ forward.getD k default)
    (hstr : r = true → ∀ i, i < a.length →
      backward.getD i default ≠ forward.getD i default →
      mid.getD i default ≠ forward.getD i default) :
    ∀ d ∈ divide predicate forward backward mid r comps,
      DivLe a n (parentDiv r forward backward) d := by
  induction comps generalizing forward mid with
  | nil =>
    intro d hd
    rcases List.mem_cons.mp hd with h1 | h2
    · subst h1
      exact head_divLe hinv hstr
    · simp [divideGo] at h2
  | cons k rest ih =>
    intro d hd
    have hk : k < a.length := hc k (List.mem_cons_self k rest)
    have hcr : ∀ i ∈ rest, i < a.length := fun i hi => hc i (List.mem_cons_of_mem k hi)
    have hndr : rest.Nodup := (List.nodup_cons.mp hnd).2
    have hknr : k ∉ rest := (List.nodup_cons.mp hnd).1
    rcases List.mem_cons.mp hd with h1 | h2
    · subst h1
      exact head_divLe hinv hstr
    · simp only [divideGo] at h2
      by_cases hp : predicate (vectorWith forward k (mid.getD k default)) = r
      · rw [if_pos hp] at h2
        exact ih forward mid hinv hcr hndr
          (fun j hj => hs j (List.mem_cons_of_mem k hj)) hstr d
          (List.mem_cons_of_mem _ h2)
      · rw [if_neg hp] at h2
        have hstep := divideInv_step hm hinv hk hp
        obtain ⟨hs', hstr'⟩ := step_strict hinv hk hknr hs hstr
        rcases List.mem_append.mp h2 with h3 | h4
        · exact divle_trans
            (onestep_divLe hinv hk (hs k (List.mem_cons_self k rest)))
            (ih _ _ hstep hcr hndr hs' hstr' d h3)
        · exact ih forward mid hinv hcr hndr
            (fun j hj => hs j (List.mem_cons_of_mem k hj)) hstr d
            (List.mem_cons_of_mem _ h4)

/-- Points of divisions produced by the omission loop stay weakly on the
forward side of the current midpoint on every axis the loop does not touch
(and strictly away from it when `result` is false, where the midpoint is the
never corner on such axes). -/
theorem lgo_stay [Inhabited α] [LinearOrder α] {a n : List α}
    {predicate : List α → Bool} (hm : MonotonePred a n predicate)
    (comps : List Nat) {r : Bool} {backward : List α} (forward mid : List α)
    (hinv : DivideInv a n predicate r forward backward mid)
    (hc : ∀ i ∈ comps, i < a.length) (hnd : comps.Nodup)
    (hs : ∀ k ∈ comps, backward.getD k default ≠ mid.getD k default ∧
      mid.getD k default ≠ forward.getD k default)
    (hstr : r = true → ∀ i, i < a.length →
      backward.getD i default ≠ forward.getD i default →
      mid.getD i default ≠ forward.getD i default)
    (j : Nat) (hj : j < a.length) (hjn : j ∉ comps)
    (hmf : mid.getD j default ≠ forward.getD j default) :
    ∀ d ∈ divideGo predicate comps forward backward mid r, ∀ v : List α,
      DivLe a n d ⟨v, v⟩ →
      RleR r a n j (mid.getD j default) (v.getD j default) ∧
        (r = false → v.getD j default ≠ mid.getD j default) := by
  induction comps generalizing forward mid with
  | nil => intro d hd; simp [divideGo] at hd
  | cons k rest ih =>
    intro d hd v hv
    have hk : k < a.length := hc k (List.mem_cons_self k rest)
    have hkf : k < forward.length := hinv.lenF ▸ hk
    have hkm : k < mid.length := hinv.lenM ▸ hk
    have hcr : ∀ i ∈ rest, i < a.length := fun i hi => hc i (List.mem_cons_of_mem k hi)
    have hndr : rest.Nodup := (List.nodup_cons.mp hnd).2
    have hknr : k ∉ rest := (List.nodup_cons.mp hnd).1
    have hjr : j ∉ rest := fun hmem => hjn (List.mem_cons_of_mem k hmem)
    have hjk : k ≠ j := fun he => hjn (he ▸ List.mem_cons_self k rest)
    simp only [divideGo] at hd
    by_cases hp : predicate (vectorWith forward k (mid.getD k default)) = r
    · rw [if_pos hp] at hd
      exact ih forward mid hinv hcr hndr
        (fun i hi => hs i (List.mem_cons_of_mem k hi)) hstr hjr hmf d hd v hv
    · rw [if_neg hp] at hd
      have hstep := divideInv_step hm hinv hk hp
      obtain ⟨hs', hstr'⟩ := step_strict hinv hk hknr hs hstr
      have hOmJ : (vectorWith forward k (mid.getD k default)).getD j default =
          forward.getD j default := getD_vectorWith_ne _ _ hjk
      have hCoJ : (vectorWith mid k (backward.getD k default)).getD j default =
          mid.getD j default := getD_vectorWith_ne _ _ hjk
      rcases List.mem_append.mp hd with h1 | h2
      · rcases List.mem_cons.mp h1 with h3 | h4
        · subst h3
          obtain ⟨c1, c2, c3⟩ := hv j hj
          cases r
          · simp only [fullDivision, Bool.false_eq_true, if_false] at c1 c2 c3
            rw [hCoJ] at c2 c3
            rw [hOmJ] at c3
            refine ⟨by simpa [RleR] using c2, fun _ => ?_⟩
            rcases c3 (fun he => hmf he.symm) with h5 | h6
            · exact h5
            · exact absurd rfl h6
          · simp only [fullDivision, if_true] at c1 c2 c3
            rw [hCoJ] at c1
            exact ⟨by simpa [RleR] using c1, by simp⟩
        · have := ih _ _ hstep hcr hndr hs' hstr' hjr
            (by rw [hCoJ, hOmJ]; exact hmf) d h4 v hv
          rw [hCoJ] at this
          exact this
      · exact ih forward mid hinv hcr hndr
          (fun i hi => hs i (List.mem_cons_of_mem k hi)) hstr hjr hmf d h2 v hv

/-- Every division produced by the omission loop has a witnessing omitted
axis: all its points lie weakly on the backward side of the current midpoint
on that axis (strictly when `result` is true, where the midpoint is the
never corner of the omitted sub-region). -/
theorem lgo_block [Inhabited α] [LinearOrder α] {a n : List α}
    {predicate : List α → Bool} (hm : MonotonePred a n predicate)
    (comps : List Nat) {r : Bool} {backward : List α} (forward mid : List α)
    (hinv : DivideInv a n predicate r forward backward mid)
    (hc : ∀ i ∈ comps, i < a.length) (hnd : comps.Nodup)
    (hs : ∀ k ∈ comps, backward.getD k default ≠ mid.getD k default ∧
      mid.getD k default ≠ forward.getD k default)
    (hstr : r = true → ∀ i, i < a.length →
      backward.getD i default ≠ forward.getD i default →
      mid.getD i default ≠ forward.getD i default) :
    ∀ d ∈ divideGo predicate comps forward backward mid r, ∃ k ∈ comps,
      ∀ v : List α, DivLe a n d ⟨v, v⟩ →
        RleR r a n k (v.getD k default) (mid.getD k default) ∧
          (r = true → v.getD k default ≠ mid.getD k default) := by
  induction comps generalizing forward mid with
  | nil => intro d hd; simp [divideGo] at hd
  | cons k rest ih =>
    intro d hd
    have hk : k < a.length := hc k (List.mem_cons_self k rest)
    have hkf : k < forward.length := hinv.lenF ▸ hk
    have hcr : ∀ i ∈ rest, i < a.length := fun i hi => hc i (List.mem_cons_of_mem k hi)
    have hndr : rest.Nodup := (List.nodup_cons.mp hnd).2
    have hknr : k ∉ rest := (List.nodup_cons.mp hnd).1
    simp only [divideGo] at hd
    by_cases hp : predicate (vectorWith forward k (mid.getD k default)) = r
    · rw [if_pos hp] at hd
      obtain ⟨k', hk', hbound⟩ := ih forward mid hinv hcr hndr
        (fun i hi => hs i (List.mem_cons_of_mem k hi)) hstr d hd
      exact ⟨k', List.mem_cons_of_mem k hk', hbound⟩
    · rw [if_neg hp] at hd
      have hstep := divideInv_step hm hinv hk hp
      obtain ⟨hs', hstr'⟩ := step_strict hinv hk hknr hs hstr
      have hOmK : (vectorWith forward k (mid.getD k default)).getD k default =
          mid.getD k default := getD_vectorWith_self _ _ _ hkf
      rcases List.mem_append.mp hd with h1 | h2
      · refine ⟨k, List.mem_cons_self k rest, ?_⟩
        intro v hv
        have hdle : DivLe a n
            (parentDiv r (vectorWith forward k (mid.getD k default)) backward)
            ⟨v, v⟩ :=
          divle_trans
            (divide_divLe hm rest _ _ hstep hcr hndr hs' hstr' d h1) hv
        obtain ⟨c1, c2, c3⟩ := hdle k hk
        cases r
        · simp only [parentDiv, Bool.false_eq_true, if_false] at c1 c2 c3
          rw [hOmK] at c1
          exact ⟨by simpa [RleR] using c1, by simp⟩
        · simp only [parentDiv, if_true] at c1 c2 c3
          rw [hOmK] at c2 c3
          refine ⟨by simpa [RleR] using c2, fun _ => ?_⟩
          rcases c3 (hs k (List.mem_cons_self k rest)).1 with h5 | h6
          · exact h5
          · exact absurd rfl h6
      · obtain ⟨k', hk', hbound⟩ := ih forward mid hinv hcr hndr
          (fun i hi => hs i (List.mem_cons_of_mem k hi)) hstr d h2
        exact ⟨k', List.mem_cons_of_mem k hk', hbound⟩

theorem ne_of_getD_ne [Inhabited α] {x y : List α} {k : Nat}
    (h : x.getD k default ≠ y.getD k default) : x ≠ y :=
  fun he => h (he ▸ rfl)

/-- The full division of a `divide` call shares no point with any division
of its omission loop: the loop member is separated at its witnessing omitted
axis. -/
theorem head_sep [Inhabited α] [LinearOrder α] {a n : List α}
    {predicate : List α → Bool} (hm : MonotonePred a n predicate)
    (comps : List Nat) {r : Bool} {backward : List α} (forward mid : List α)
    (hinv : DivideInv a n predicate r forward backward mid)
    (hc : ∀ i ∈ comps, i < a.length) (hnd : comps.Nodup)
    (hs : ∀ k ∈ comps, backward.getD k default ≠ mid.getD k default ∧
      mid.getD k default ≠ forward.getD k default)
    (hstr : r = true → ∀ i, i < a.length →
      backward.getD i default ≠ forward.getD i default →
      mid.getD i default ≠ forward.getD i default) :
    ∀ d₂ ∈ divideGo predicate comps forward backward mid r, ∀ v w : List α,
      DivLe a n (fullDivision r mid forward) ⟨v, v⟩ → DivLe a n d₂ ⟨w, w⟩ →
      v ≠ w := by
  intro d₂ hd₂ v w hv hw
  obtain ⟨k, hkmem, hbound⟩ :=
    lgo_block hm comps forward mid hinv hc hnd hs hstr d₂ hd₂
  have hk : k < a.length := hc k hkmem
  obtain ⟨b1, b2⟩ := hbound w hw
  obtain ⟨c1, c2, c3⟩ := hv k hk
  cases r
  · simp only [fullDivision, Bool.false_eq_true, if_false] at c1 c2 c3
    have hvm : v.getD k default ≠ mid.getD k default := by
      rcases c3 (hs k hkmem).2.symm with h5 | h6
      · exact h5
      · exact absurd rfl h6
    exact ne_of_getD_ne (rle_sep c2 hvm (by simpa [RleR] using b1))
  · simp only [fullDivision, if_true] at c1 c2 c3
    exact (ne_of_getD_ne (rle_sep (by simpa [RleR] using b1) (b2 rfl) c1)).symm

/-- Distinct divisions produced by the omission loop have disjoint point
regions. -/
theorem divideGo_pairwise [Inhabited α] [LinearOrder α] {a n : List α}
    {predicate : List α → Bool} (hm : MonotonePred a n predicate)
    (comps : List Nat) {r : Bool} {backward : List α} (forward mid : List α)
    (hinv : DivideInv a n predicate r forward backward mid)
    (hc : ∀ i ∈ comps, i < a.length) (hnd : comps.Nodup)
    (hs : ∀ k ∈ comps, backward.getD k default ≠ mid.getD k default ∧
      mid.getD k default ≠ forward.getD k default)
    (hstr : r = true → ∀ i, i < a.length →
      backward.getD i default ≠ forward.getD i default →
      mid.getD i default ≠ forward.getD i default) :
    (divideGo predicate comps forward backward mid r).Pairwise
      (fun d₁ d₂ => ∀ v w : List α,
        DivLe a n d₁ ⟨v, v⟩ → DivLe a n d₂ ⟨w, w⟩ → v ≠ w) := by
  induction comps generalizing forward mid with
  | nil => simp [divideGo]
  | cons k rest ih =>
    have hk : k < a.length := hc k (List.mem_cons_self k rest)
    have hkf : k < forward.length := hinv.lenF ▸ hk
    have hcr : ∀ i ∈ rest, i < a.length := fun i hi => hc i (List.mem_cons_of_mem k hi)
    have hndr : rest.Nodup := (List.nodup_cons.mp hnd).2
    have hknr : k ∉ rest := (List.nodup_cons.mp hnd).1
    have hsr : ∀ j ∈ rest, backward.getD j default ≠ mid.getD j default ∧
        mid.getD j default ≠ forward.getD j default :=
      fun j hj => hs j (List.mem_cons_of_mem k hj)
    simp only [divideGo]
    by_cases hp : predicate (vectorWith forward k (mid.getD k default)) = r
    · rw [if_pos hp]
      exact ih forward mid hinv hcr hndr hsr hstr
    · rw [if_neg hp]
      have hstep := divideInv_step hm hinv hk hp
      obtain ⟨hs', hstr'⟩ := step_strict hinv hk hknr hs hstr
      have hOmK : (vectorWith forward k (mid.getD k default)).getD k default =
          mid.getD k default := getD_vectorWith_self _ _ _ hkf
      rw [List.pairwise_append]
      refine ⟨?_, ih forward mid hinv hcr hndr hsr hstr, ?_⟩
      · rw [List.pairwise_cons]
        exact ⟨fun d₂ hd₂ => head_sep hm rest _ _ hstep hcr hndr hs' hstr' d₂ hd₂,
          ih _ _ hstep hcr hndr hs' hstr'⟩
      · intro x hx y hy v w hvx hwy
        have hxp : DivLe a n
            (parentDiv r (vectorWith forward k (mid.getD k default)) backward)
            ⟨v, v⟩ :=
          divle_trans (divide_divLe hm rest _ _ hstep hcr hndr hs' hstr' x hx) hvx
        have hyp := lgo_stay hm rest forward mid hinv hcr hndr hsr hstr k hk hknr
          (hs k (List.mem_cons_self k rest)).2 y hy w hwy
        obtain ⟨c1, c2, c3⟩ := hxp k hk
        cases r
        · simp only [parentDiv, Bool.false_eq_true, if_false] at c1 c2 c3
          rw [hOmK] at c1
          have hwm : w.getD k default ≠ mid.getD k default := hyp.2 rfl
          exact (ne_of_getD_ne
            (rle_sep (by simpa [RleR] using hyp.1) hwm c1)).symm
        · simp only [parentDiv, if_true] at c1 c2 c3
          rw [hOmK] at c2 c3
          have hvm : v.getD k default ≠ mid.getD k default := by
            rcases c3 (hs k (List.mem_cons_self k rest)).1 with h5 | h6
            · exact h5
            · exact absurd rfl h6
          exact ne_of_getD_ne (rle_sep c2 hvm (by simpa [RleR] using hyp.1))

/-- Distinct divisions yielded by one `divide` call have disjoint point
regions. -/
theorem divide_pairwise [Inhabited α] [LinearOrder α] {a n : List α}
    {predicate : List α → Bool} (hm : MonotonePred a n predicate)
    (comps : List Nat) {r : Bool} {backward : List α} (forward mid : List α)
    (hinv : DivideInv a n predicate r forward backward mid)
    (hc : ∀ i ∈ comps, i < a.length) (hnd : comps.Nodup)
    (hs : ∀ k ∈ comps, backward.getD k default ≠ mid.getD k default ∧
      mid.getD k default ≠ forward.getD k default)
    (hstr : r = true → ∀ i, i < a.length →
      backward.getD i default ≠ forward.getD i default →
      mid.getD i default ≠ forward.getD i default) :
    (divide predicate forward backward mid r comps).Pairwise
      (fun d₁ d₂ => ∀ v w : List α,
        DivLe a n d₁ ⟨v, v⟩ → DivLe a n d₂ ⟨w, w⟩ → v ≠ w) :=
  List.pairwise_cons.mpr
    ⟨fun d₂ hd₂ => head_sep hm comps forward mid hinv hc hnd hs hstr d₂ hd₂,
      divideGo_pairwise hm comps forward mid hinv hc hnd hs hstr⟩

/-- At a driver step, the midpoint vector is distinct from both corners on
every active axis (from the strictness half of the convergence contract). -/
theorem dfs_step_hs [Inhabited α] [LinearOrder α] {a n : List α}
    {predicate : List α → Bool} {midpoint : List (α → α → α)}
    {shouldContinue : List (α → α → Bool)} {division : Division α} {comps : List Nat}
    (hstrict : MidpointStrict a n midpoint shouldContinue)
    (hmp : midpoint.length = a.length) (hd : DivInv a n predicate division)
    (hc : ∀ i ∈ comps, i < a.length) (r : Bool) :
    ∀ k ∈ createShouldContinue shouldContinue division comps,
      (if r then division.always else division.never).getD k default ≠
        (createMidpoint midpoint division
          (createShouldContinue shouldContinue division comps)).getD k default ∧
      (createMidpoint midpoint division
          (createShouldContinue shouldContinue division comps)).getD k default ≠
        (if r then division.never else division.always).getD k default := by
  intro k hk'
  obtain ⟨hkc, hcond⟩ := List.mem_filter.mp hk'
  have hk : k < a.length := hc k hkc
  have hcont : (createShouldContinue shouldContinue division comps).contains k :=
    List.elem_eq_true_of_mem hk'
  rw [getD_createMidpoint _ _ _ (hmp ▸ hk), if_pos hcont]
  have hms := hstrict k hk _ _ hcond (hd.leAN k hk)
  cases r
  · exact ⟨fun he => hms.2 he.symm, hms.1⟩
  · exact ⟨fun he => hms.1 he.symm, hms.2⟩

/-- At a driver step with `result = true`, the midpoint vector differs from
the forward corner on every axis where the division is non-degenerate. -/
theorem dfs_step_hstr [Inhabited α] [LinearOrder α] {a n : List α}
    {predicate : List α → Bool} {midpoint : List (α → α → α)}
    {shouldContinue : List (α → α → Bool)} {division : Division α} {comps : List Nat}
    (hstrict : MidpointStrict a n midpoint shouldContinue)
    (hmp : midpoint.length = a.length) (hd : DivInv a n predicate division)
    (_hc : ∀ i ∈ comps, i < a.length) (r : Bool) :
    r = true → ∀ i, i < a.length →
      (if r then division.always else division.never).getD i default ≠
        (if r then division.never else division.always).getD i default →
      (createMidpoint midpoint division
          (createShouldContinue shouldContinue division comps)).getD i default ≠
        (if r then division.never else division.always).getD i default := by
  intro hr i hi
  subst hr
  simp only [if_true]
  rw [getD_createMidpoint _ _ _ (hmp ▸ hi)]
  by_cases hci : (createShouldContinue shouldContinue division comps).contains i
  · rw [if_pos hci]
    intro _
    have hmem : i ∈ createShouldContinue shouldContinue division comps :=
      List.mem_of_elem_eq_true hci
    exact (hstrict i hi _ _ (List.mem_filter.mp hmem).2 (hd.leAN i hi)).2
  · rw [if_neg hci]
    exact fun hne => hne

/-- Outputs of the driver lie in the half-open region of the division it was
called on. -/
theorem dfs_reg [Inhabited α] [LinearOrder α] {a n : List α}
    {predicate : List α → Bool} {midpoint : List (α → α → α)}
    {shouldContinue : List (α → α → Bool)}
    (hm : MonotonePred a n predicate) (hv : MidpointValid a n midpoint)
    (hstrict : MidpointStrict a n midpoint shouldContinue)
    (hmp : midpoint.length = a.length) :
    ∀ (fuel : Nat) (division : Division α) (comps : List Nat) (out : List (List α)),
      DivInv a n predicate division → (∀ i ∈ comps, i < a.length) → comps.Nodup →
      dfsBinarySearch predicate midpoint shouldContinue fuel division comps = some out →
      ∀ v ∈ out, DivLe a n division ⟨v, v⟩ := by
  intro fuel
  induction fuel with
  | zero =>
    intro division comps out _ _ _ h
    rw [dfsBinarySearch] at h
    cases h
  | succ fuel ih =>
    intro division comps out hd hc hnd h
    simp only [dfsBinarySearch] at h
    by_cases he : (createShouldContinue shouldContinue division comps).isEmpty
    · rw [if_pos he] at h
      injection h with h
      subst h
      intro v hv'
      rcases List.mem_singleton.mp hv' with h1
      subst h1
      intro i hi
      exact ⟨rle_refl a n i _, hd.leAN i hi, fun hne => Or.inl hne⟩
    · rw [if_neg he] at h
      have hcs : ∀ i ∈ createShouldContinue shouldContinue division comps,
          i < a.length := fun i hi => hc i (List.mem_filter.mp hi).1
      have hnds : (createShouldContinue shouldContinue division comps).Nodup :=
        hnd.filter _
      have hinv := dfs_step_divideInv hv hmp hd
        (predicate (createMidpoint midpoint division
          (createShouldContinue shouldContinue division comps))) rfl
      have hparent : parentDiv
          (predicate (createMidpoint midpoint division
            (createShouldContinue shouldContinue division comps)))
          (if predicate (createMidpoint midpoint division
              (createShouldContinue shouldContinue division comps)) then
            division.never else division.always)
          (if predicate (createMidpoint midpoint division
              (createShouldContinue shouldContinue division comps)) then
            division.always else division.never) = division := by
        cases predicate (createMidpoint midpoint division
          (createShouldContinue shouldContinue division comps)) <;>
          simp [parentDiv]
      refine dfsList_sound _
        (fun d => DivInv a n predicate d ∧ DivLe a n division d)
        (fun v => DivLe a n division ⟨v, v⟩)
        (fun d hPd o ho v hv' =>
          divle_trans hPd.2 (ih d _ o hPd.1 hcs hnds ho v hv')) _ out ?_ h
      intro d hdm
      refine ⟨divide_divInv hm _ _ _ hinv hcs d hdm, ?_⟩
      rw [← hparent]
      exact divide_divLe hm _ _ _ hinv hcs hnds
        (dfs_step_hs hstrict hmp hd hc _)
        (dfs_step_hstr hstrict hmp hd hc _) d hdm

/-- Concatenated driver outputs over a division list are duplicate-free when
each branch is duplicate-free, outputs stay in their division's region, and
the regions are pairwise disjoint. -/
theorem dfsList_nodup {α : Type} (f : Division α → Option (List (List α)))
    (P : Division α → Prop) (R : Division α → List α → Prop)
    (hf : ∀ d, P d → ∀ o, f d = some o → o.Nodup)
    (hreg : ∀ d, P d → ∀ o, f d = some o → ∀ v ∈ o, R d v) :
    ∀ (ds : List (Division α)) (out : List (List α)), (∀ d ∈ ds, P d) →
      ds.Pairwise (fun d₁ d₂ => ∀ v w, R d₁ v → R d₂ w → v ≠ w) →
      dfsList f ds = some out → out.Nodup := by
  intro ds
  induction ds with
  | nil =>
    intro out _ _ h
    simp only [dfsList, Option.some.injEq] at h
    subst h
    exact List.nodup_nil
  | cons d ds ih =>
    intro out hP hPW h
    rw [dfsList] at h
    cases hfd : f d with
    | none => rw [hfd] at h; simp at h
    | some rr =>
      rw [hfd] at h
      cases hds : dfsList f ds with
      | none => rw [hds] at h; simp at h
      | some rs =>
        rw [hds] at h
        simp only [Option.some_bind, Option.map_some', Option.some.injEq] at h
        subst h
        rw [List.nodup_append]
        refine ⟨hf d (hP d (List.mem_cons_self d ds)) rr hfd,
          ih rs (fun d' hd' => hP d' (List.mem_cons_of_mem d hd'))
            (List.Pairwise.of_cons hPW) hds, ?_⟩
        intro v hvr hvrs
        have hRv : R d v := hreg d (hP d (List.mem_cons_self d ds)) rr hfd v hvr
        have hvne : v ≠ v :=
          dfsList_sound f
            (fun d₂ => P d₂ ∧ ∀ vv ww, R d vv → R d₂ ww → vv ≠ ww)
            (fun w => v ≠ w)
            (fun d₂ hP₂ o ho w hw => hP₂.2 v w hRv (hreg d₂ hP₂.1 o ho w hw))
            ds rs
            (fun d₂ hd₂ => ⟨hP d₂ (List.mem_cons_of_mem d hd₂),
              (List.pairwise_cons.mp hPW).1 d₂ hd₂⟩)
            hds v hvrs
        exact hvne rfl

/-- Under the spec preconditions (with strict midpoints), the driver never
yields the same vector twice. -/
theorem dfs_nodup [Inhabited α] [LinearOrder α] {a n : List α}
    {predicate : List α → Bool} {midpoint : List (α → α → α)}
    {shouldContinue : List (α → α → Bool)}
    (hm : MonotonePred a n predicate) (hv : MidpointValid a n midpoint)
    (hstrict : MidpointStrict a n midpoint shouldContinue)
    (hmp : midpoint.length = a.length) :
    ∀ (fuel : Nat) (division : Division α) (comps : List Nat) (out : List (List α)),
      DivInv a n predicate division → (∀ i ∈ comps, i < a.length) → comps.Nodup →
      dfsBinarySearch predicate midpoint shouldContinue fuel division comps = some out →
      out.Nodup := by
  intro fuel
  induction fuel with
  | zero =>
    intro division comps out _ _ _ h
    rw [dfsBinarySearch] at h
    cases h
  | succ fuel ih =>
    intro division comps out hd hc hnd h
    simp only [dfsBinarySearch] at h
    by_cases he : (createShouldContinue shouldContinue division comps).isEmpty
    · rw [if_pos he] at h
      injection h with h
      subst h
      simp
    · rw [if_neg he] at h
      have hcs : ∀ i ∈ createShouldContinue shouldContinue division comps,
          i < a.length := fun i hi => hc i (List.mem_filter.mp hi).1
      have hnds : (createShouldContinue shouldContinue division comps).Nodup :=
        hnd.filter _
      have hinv := dfs_step_divideInv hv hmp hd
        (predicate (createMidpoint midpoint division
          (createShouldContinue shouldContinue division comps))) rfl
      exact dfsList_nodup _ (DivInv a n predicate)
        (fun d v => DivLe a n d ⟨v, v⟩)
        (fun d hPd o ho => ih d _ o hPd hcs hnds ho)
        (fun d hPd o ho v hv' => dfs_reg hm hv hstrict hmp fuel d _ o hPd hcs hnds ho v hv')
        _ out
        (divide_divInv hm _ _ _ hinv hcs)
        (divide_pairwise hm _ _ _ hinv hcs hnds
          (dfs_step_hs hstrict hmp hd hc _)
          (dfs_step_hstr hstrict hmp hd hc _))
        h

/-- C3: uniqueness — under the documented preconditions (equal lengths,
endpoint classification, spec §3 monotonicity, and midpoint/continuation
pairs that converge: midpoints land strictly inside the per-axis interval
while the continuation still asks to refine), a complete run of
`ndBinarySearch` yields no vector twice. -/
theorem c3_uniqueness [Inhabited α] [LinearOrder α] (fuel : Nat)
    (alwaysEnd neverEnd : List α) (predicate : List α → Bool)
    (midpoint : List (α → α → α)) (shouldContinue : List (α → α → Bool))
    (out : List (List α))
    (hlen1 : alwaysEnd.length = neverEnd.length)
    (hlen2 : neverEnd.length = midpoint.length)
    (hlen3 : midpoint.length = shouldContinue.length)
    (hA : predicate alwaysEnd = true) (hN : predicate neverEnd = false)
    (hm : MonotonePred alwaysEnd neverEnd predicate)
    (hv : MidpointValid alwaysEnd neverEnd midpoint)
    (hstrict : MidpointStrict alwaysEnd neverEnd midpoint shouldContinue)
    (h : ndBinarySearch fuel alwaysEnd neverEnd predicate midpoint shouldContinue =
      Except.ok (some out)) :
    out.Nodup := by
  rw [ndBinarySearch, if_neg (by push_neg; exact ⟨hlen1, hlen2, hlen3⟩)] at h
  injection h with h
  exact dfs_nodup hm hv hstrict (hlen2 ▸ hlen1).symm fuel ⟨alwaysEnd, neverEnd⟩
    (List.range alwaysEnd.length) out
    ⟨rfl, hlen1.symm, hA, hN, vecle_refl _ _ _,
      fun i _ => rle_ends alwaysEnd neverEnd i, vecle_refl _ _ _⟩
    (fun i hi => List.mem_range.mp hi) (List.nodup_range _) h

/-- Witness for C3: the 1-D demo run yields `[[1]]`, which is duplicate-free
by the theorem. -/
theorem c3_uniqueness_witness :
    ndBinarySearch 8 [(0 : Int)] [4] demoPred [integerMidpoint] [gapContinue] =
        Except.ok (some [[1]]) ∧ ([[(1 : Int)]] : List (List Int)).Nodup :=
  ⟨rfl, c3_uniqueness 8 [0] [4] demoPred [integerMidpoint] [gapContinue] [[1]]
    rfl rfl rfl (by decide) (by decide) demoPred_mono demoMid_valid demoMid_strict rfl⟩
